/-
Verification of the ico_to_svg core algorithms: frame-size selection
(`ico_parser.select_size`), scanline vectorization (`svg_writer.vectorize`)
and path emission (`svg_writer.runs_to_path_d`), shallowly embedded from
the Python source.
-/
import Mathlib

namespace IcoToSvg

/-! ## Size selection (ico_parser.select_size)

A `Size` is a `(width, height)` pair.  Python's `max(xs, key=k)` /
`min(xs, key=k)` scan the list left to right keeping the current best and
replacing it only on a strictly better key, so they return the *first*
element attaining the optimal key; `pyBest better x l` embeds that loop,
where `better s m` holds when the new element `s` must replace the current
best `m`. -/

abbrev Size := Nat × Nat

/-- Python `max`/`min` with a key: fold over the tail keeping the first
optimal element. `better s m` = "`s` strictly beats the current best `m`". -/
def pyBest (better : α → α → Prop) [DecidableRel better] (x : α) (l : List α) : α :=
  l.foldl (fun m s => if better s m then s else m) x

/-- Strict lexicographic order on triples of naturals (Python tuple `<`). -/
def lt3 (a b : Nat × Nat × Nat) : Prop :=
  a.1 < b.1 ∨ (a.1 = b.1 ∧ (a.2.1 < b.2.1 ∨ (a.2.1 = b.2.1 ∧ a.2.2 < b.2.2)))

instance (a b : Nat × Nat × Nat) : Decidable (lt3 a b) := by
  unfold lt3; infer_instance

/-- Strict lexicographic order on 4-tuples of naturals (Python tuple `<`). -/
def lt4 (a b : Nat × Nat × Nat × Nat) : Prop :=
  a.1 < b.1 ∨ (a.1 = b.1 ∧ lt3 a.2 b.2)

instance (a b : Nat × Nat × Nat × Nat) : Decidable (lt4 a b) := by
  unfold lt4; infer_instance

/-- `|a - b|` on naturals, embedding Python's `abs(s[0] - s[1])`. -/
def absDiff (a b : Nat) : Nat := if a ≤ b then b - a else a - b

/-- Key of `max(available, key=lambda s: (s[0]*s[1], s[0], s[1]))`. -/
def maxKey (s : Size) : Nat × Nat × Nat := (s.1 * s.2, s.1, s.2)

/-- Key of `min(larger, key=lambda s: (abs(s[0]-s[1]), s[0]*s[1], s[0], s[1]))`. -/
def minKey (s : Size) : Nat × Nat × Nat × Nat := (absDiff s.1 s.2, s.1 * s.2, s.1, s.2)

/-- `max(available, key=maxKey)` on a non-empty list `x :: l`. -/
def pyMaxSize (x : Size) (l : List Size) : Size :=
  pyBest (fun s m => lt3 (maxKey m) (maxKey s)) x l

/-- `min(larger, key=minKey)` on a non-empty list `x :: l`. -/
def pyMinSize (x : Size) (l : List Size) : Size :=
  pyBest (fun s m => lt4 (minKey s) (minKey m)) x l

/-- Embedding of `ico_parser.select_size`: exact match, else nearest
larger (most-square, then smallest area, then width, then height), else
largest by `(area, width, height)`; error on an empty list. -/
def select_size (available : List Size) (desired : Option Size) : Except String Size :=
  match available with
  | [] => .error "No sizes available in ICO"
  | a :: rest =>
    let largest := pyMaxSize a rest
    match desired with
    | none => .ok largest
    | some (dw, dh) =>
      if (dw, dh) ∈ a :: rest then .ok (dw, dh)
      else
        match (a :: rest).filter (fun s => dw ≤ s.1 && dh ≤ s.2) with
        | [] => .ok largest
        | b :: larger => .ok (pyMinSize b larger)

/-! ## Vectorization (svg_writer.vectorize)

A bitmap is a width, a height and an RGBA pixel grid addressed as
`px x y` (the source's `pixels[x, y]`; the source is only ever applied to
in-bounds coordinates, so the behaviour outside `[0,w) × [0,h)` is
irrelevant).  `vectorize` scans each row left to right, turning maximal
spans of same-RGB, above-threshold pixels into `Run`s grouped per
normalized color key `(r, g, b, 255)` in a table that preserves first-seen
key order and appends runs in scan order, mirroring the Python dict with
`setdefault(...).append(...)`. -/

/-- One RGBA pixel / color key (each channel an integer). -/
structure RGBA where
  r : Nat
  g : Nat
  b : Nat
  a : Nat
deriving DecidableEq, Repr

/-- A horizontal run: row `y`, inclusive start column `x1`, inclusive end
column `x2` (svg_writer.Run). -/
structure Run where
  y : Nat
  x1 : Nat
  x2 : Nat
deriving DecidableEq, Repr

/-- An RGBA bitmap with random pixel access. -/
structure Bitmap where
  w : Nat
  h : Nat
  px : Nat → Nat → RGBA

/-- The normalized opaque color key `(r, g, b, 255)` of a pixel. -/
def colorKey (p : RGBA) : RGBA := ⟨p.r, p.g, p.b, 255⟩

/-- Inner `while` loop of `vectorize`: starting at column `x`, keep
advancing while the pixel is above the alpha threshold and matches the
current run's RGB; returns the first column where scanning stopped. -/
def extendRun (px : Nat → RGBA) (w thr r g b x : Nat) : Nat :=
  if _hx : x < w then
    if thr ≤ (px x).a ∧ ((px x).r, (px x).g, (px x).b) = (r, g, b) then
      extendRun px w thr r g b (x + 1)
    else x
  else x
termination_by w - x

/-- Outer `while` loop of `vectorize` for the row `y`: scanning from
column `x`, skip below-threshold pixels and otherwise emit a
`(color, run)` pair for the maximal same-color span starting there. -/
def scanRow (px : Nat → RGBA) (w thr y x : Nat) : List (RGBA × Run) :=
  if _hx : x < w then
    if thr ≤ (px x).a then
      (colorKey (px x), ⟨y, x, extendRun px w thr (px x).r (px x).g (px x).b (x + 1) - 1⟩) ::
        scanRow px w thr y (extendRun px w thr (px x).r (px x).g (px x).b (x + 1))
    else scanRow px w thr y (x + 1)
  else []
termination_by w - x
decreasing_by
  · have hge : ∀ n x0, w - x0 ≤ n → x0 ≤ extendRun px w thr (px x).r (px x).g (px x).b x0 := by
      intro n
      induction n with
      | zero =>
        intro x0 h0
        rw [extendRun]
        have : ¬ x0 < w := by omega
        simp [this]
      | succ n ih =>
        intro x0 h0
        rw [extendRun]
        by_cases hx0 : x0 < w
        · simp only [dif_pos hx0]
          split
          · exact Nat.le_trans (by omega) (ih (x0 + 1) (by omega))
          · exact Nat.le_refl x0
        · simp [hx0]
    have := hge (w - (x + 1)) (x + 1) (Nat.le_refl _)
    omega
  · omega

/-- `color_runs.setdefault(color, []).append(run)`: append `r` to the run
list of key `c`, inserting the key at the end of the table if absent. -/
def addRun (tbl : List (RGBA × List Run)) (c : RGBA) (r : Run) : List (RGBA × List Run) :=
  match tbl with
  | [] => [(c, [r])]
  | (c', rs) :: rest => if c' = c then (c', rs ++ [r]) :: rest else (c', rs) :: addRun rest c r

/-- The `(color, run)` pairs produced for row `y`, in scan order. -/
def rowRuns (img : Bitmap) (thr y : Nat) : List (RGBA × Run) :=
  scanRow (fun x => img.px x y) img.w thr y 0

/-- Embedding of `svg_writer.vectorize`: scan the rows top to bottom,
accumulating each row's runs into the color table. -/
def vectorize (img : Bitmap) (thr : Nat) : List (RGBA × List Run) :=
  (List.range img.h).foldl
    (fun tbl y => (rowRuns img thr y).foldl (fun t p => addRun t p.1 p.2) tbl) []

/-- All `(color, run)` pairs recorded in a color table. -/
def tablePairs (tbl : List (RGBA × List Run)) : List (RGBA × Run) :=
  tbl.flatMap (fun p => p.2.map (fun r => (p.1, r)))

/-- The pixel `(x, y)` lies in the span of the recorded pair `p`. -/
def covers (p : RGBA × Run) (x y : Nat) : Prop :=
  p.2.y = y ∧ p.2.x1 ≤ x ∧ x ≤ p.2.x2

instance (p : RGBA × Run) (x y : Nat) : Decidable (covers p x y) := by
  unfold covers; infer_instance

/-! ## Path emission (svg_writer.runs_to_path_d)

Each run becomes the textual subpath `M{x1},{y}H{x2+1}V{y+1}H{x1}Z` and
the subpaths are joined with a single space (`" ".join(parts)`).  The
spec-side semantics below interprets such a subpath as the cycle of
points its commands visit. -/

/-- The f-string `f"M{x1},{y}H{x2}V{y + 1}H{x1}Z"` of the source, where
its local `x2` is `run.x2 + 1` (exclusive end for the `H` command). -/
def runPart (r : Run) : String :=
  "M" ++ toString r.x1 ++ "," ++ toString r.y ++ "H" ++ toString (r.x2 + 1) ++
    "V" ++ toString (r.y + 1) ++ "H" ++ toString r.x1 ++ "Z"

/-- Embedding of `svg_writer.runs_to_path_d`. -/
def runs_to_path_d (runs : List Run) : String :=
  String.intercalate " " (runs.map runPart)

/-- Absolute SVG path commands used by the emitter. -/
inductive PathCmd where
  | moveTo (x y : Nat)
  | hLineTo (x : Nat)
  | vLineTo (y : Nat)
  | close
deriving DecidableEq, Repr

/-- Textual form of one path command. -/
def renderCmd : PathCmd → String
  | .moveTo x y => "M" ++ toString x ++ "," ++ toString y
  | .hLineTo x => "H" ++ toString x
  | .vLineTo y => "V" ++ toString y
  | .close => "Z"

/-- The command sequence a run's subpath spells out. -/
def runCmds (r : Run) : List PathCmd :=
  [.moveTo r.x1 r.y, .hLineTo (r.x2 + 1), .vLineTo (r.y + 1), .hLineTo r.x1, .close]

/-- Points visited by a command list, given the current point and the
subpath's starting point (`Z` returns to the start). -/
def tracePoints : List PathCmd → Nat × Nat → Nat × Nat → List (Nat × Nat)
  | [], _, _ => []
  | .moveTo x y :: rest, _, _ => (x, y) :: tracePoints rest (x, y) (x, y)
  | .hLineTo x :: rest, cur, start => (x, cur.2) :: tracePoints rest (x, cur.2) start
  | .vLineTo y :: rest, cur, start => (cur.1, y) :: tracePoints rest (cur.1, y) start
  | .close :: rest, _, start => start :: tracePoints rest start start

/-- The closed boundary cycle of the axis-aligned rectangle with corners
`(xlo, ylo)` and `(xhi, yhi)`. -/
def rectCycle (xlo ylo xhi yhi : Nat) : List (Nat × Nat) :=
  [(xlo, ylo), (xhi, ylo), (xhi, yhi), (xlo, yhi), (xlo, ylo)]

/-- A concrete 2×2 fully opaque red bitmap, used to evaluate the
vectorizer on a closed input. -/
def redImg : Bitmap := ⟨2, 2, fun _ _ => ⟨255, 0, 0, 255⟩⟩

theorem pyBest_mem (better : α → α → Prop) [DecidableRel better] (x : α) (l : List α) :
    pyBest better x l ∈ x :: l := by
  induction l generalizing x with
  | nil => simp [pyBest]
  | cons s l ih =>
    show pyBest better (if better s x then s else x) l ∈ x :: s :: l
    rcases List.mem_cons.mp (ih (if better s x then s else x)) with h | h
    · rw [h]; split <;> simp
    · simp [h]

theorem pyBest_not_better (better : α → α → Prop) [DecidableRel better]
    (htrans : ∀ a b c, better a b → better b c → better a c)
    (hntrans : ∀ a b c, ¬ better a b → ¬ better b c → ¬ better a c)
    (hirr : ∀ a, ¬ better a a)
    (x : α) (l : List α) :
    ∀ s ∈ x :: l, ¬ better s (pyBest better x l) := by
  induction l generalizing x with
  | nil =>
    intro s hs
    simp only [List.mem_singleton] at hs
    subst hs
    simpa [pyBest] using hirr s
  | cons s' l ih =>
    intro s hs
    simp only [List.mem_cons] at hs
    have step : pyBest better x (s' :: l) = pyBest better (if better s' x then s' else x) l := rfl
    rw [step]
    by_cases h : better s' x
    · rw [if_pos h]
      rcases hs with rfl | rfl | hs
      · intro hcon
        exact ih s' s' (List.mem_cons_self s' l) (htrans s' s _ h hcon)
      · exact ih s s (List.mem_cons_self s l)
      · exact ih s' s (List.mem_cons_of_mem s' hs)
    · rw [if_neg h]
      rcases hs with rfl | rfl | hs
      · exact ih s s (List.mem_cons_self s l)
      · exact hntrans s x _ h (ih x x (List.mem_cons_self x l))
      · exact ih x s (List.mem_cons_of_mem x hs)

theorem lt3_trans (a b c : Nat × Nat × Nat) : lt3 a b → lt3 b c → lt3 a c := by
  obtain ⟨a1, a2, a3⟩ := a; obtain ⟨b1, b2, b3⟩ := b; obtain ⟨c1, c2, c3⟩ := c
  simp only [lt3]; omega

theorem lt3_not_trans (a b c : Nat × Nat × Nat) : ¬ lt3 a b → ¬ lt3 b c → ¬ lt3 a c := by
  obtain ⟨a1, a2, a3⟩ := a; obtain ⟨b1, b2, b3⟩ := b; obtain ⟨c1, c2, c3⟩ := c
  simp only [lt3]; omega

theorem lt3_irrefl (a : Nat × Nat × Nat) : ¬ lt3 a a := by
  obtain ⟨a1, a2, a3⟩ := a; simp only [lt3]; omega

theorem lt3_total (a b : Nat × Nat × Nat) : lt3 a b ∨ a = b ∨ lt3 b a := by
  obtain ⟨a1, a2, a3⟩ := a; obtain ⟨b1, b2, b3⟩ := b
  simp only [lt3, Prod.mk.injEq]; omega

theorem lt4_trans (a b c : Nat × Nat × Nat × Nat) : lt4 a b → lt4 b c → lt4 a c := by
  obtain ⟨a1, a2, a3, a4⟩ := a; obtain ⟨b1, b2, b3, b4⟩ := b; obtain ⟨c1, c2, c3, c4⟩ := c
  simp only [lt4, lt3]; omega

theorem lt4_not_trans (a b c : Nat × Nat × Nat × Nat) : ¬ lt4 a b → ¬ lt4 b c → ¬ lt4 a c := by
  obtain ⟨a1, a2, a3, a4⟩ := a; obtain ⟨b1, b2, b3, b4⟩ := b; obtain ⟨c1, c2, c3, c4⟩ := c
  simp only [lt4, lt3]; omega

theorem lt4_irrefl (a : Nat × Nat × Nat × Nat) : ¬ lt4 a a := by
  obtain ⟨a1, a2, a3, a4⟩ := a; simp only [lt4, lt3]; omega

theorem lt4_total (a b : Nat × Nat × Nat × Nat) : lt4 a b ∨ a = b ∨ lt4 b a := by
  obtain ⟨a1, a2, a3, a4⟩ := a; obtain ⟨b1, b2, b3, b4⟩ := b
  simp only [lt4, lt3, Prod.mk.injEq]; omega

theorem maxKey_inj {s t : Size} (h : maxKey s = maxKey t) : s = t := by
  obtain ⟨s1, s2⟩ := s; obtain ⟨t1, t2⟩ := t
  simp only [maxKey, Prod.mk.injEq] at h ⊢
  omega

theorem minKey_inj {s t : Size} (h : minKey s = minKey t) : s = t := by
  obtain ⟨s1, s2⟩ := s; obtain ⟨t1, t2⟩ := t
  simp only [minKey, Prod.mk.injEq] at h ⊢
  omega

/-- `pyMaxSize` returns a member that no other member strictly beats on
the `(area, width, height)` key; with key injectivity it is the strict
lexicographic maximum. -/
theorem pyMaxSize_spec (a : Size) (rest : List Size) :
    pyMaxSize a rest ∈ a :: rest ∧
      ∀ s ∈ a :: rest, s = pyMaxSize a rest ∨ lt3 (maxKey s) (maxKey (pyMaxSize a rest)) := by
  refine ⟨pyBest_mem _ a rest, ?_⟩
  intro s hs
  have hnb := pyBest_not_better (fun s m => lt3 (maxKey m) (maxKey s))
    (fun x y z h1 h2 => lt3_trans _ _ _ h2 h1)
    (fun x y z h1 h2 => lt3_not_trans _ _ _ h2 h1)
    (fun x => lt3_irrefl _) a rest s hs
  rcases lt3_total (maxKey s) (maxKey (pyMaxSize a rest)) with h | h | h
  · exact Or.inr h
  · exact Or.inl (maxKey_inj h)
  · exact absurd h hnb

/-- `pyMinSize` returns a member beating every other member on the
`(squareness, area, width, height)` key: the strict lexicographic minimum. -/
theorem pyMinSize_spec (b : Size) (rest : List Size) :
    pyMinSize b rest ∈ b :: rest ∧
      ∀ s ∈ b :: rest, s = pyMinSize b rest ∨ lt4 (minKey (pyMinSize b rest)) (minKey s) := by
  refine ⟨pyBest_mem _ b rest, ?_⟩
  intro s hs
  have hnb := pyBest_not_better (fun s m => lt4 (minKey s) (minKey m))
    (fun x y z h1 h2 => lt4_trans _ _ _ h1 h2)
    (fun x y z h1 h2 => lt4_not_trans _ _ _ h1 h2)
    (fun x => lt4_irrefl _) b rest s hs
  rcases lt4_total (minKey s) (minKey (pyMinSize b rest)) with h | h | h
  · exact absurd h hnb
  · exact Or.inl (minKey_inj h)
  · exact Or.inr h

theorem colorKey_eq_iff (p q : RGBA) :
    colorKey p = colorKey q ↔ (p.r, p.g, p.b) = (q.r, q.g, q.b) := by
  simp only [colorKey, RGBA.mk.injEq, Prod.mk.injEq, and_true]

theorem extendRun_ge (px : Nat → RGBA) (w thr r g b : Nat) :
    ∀ x, x ≤ extendRun px w thr r g b x := by
  have H : ∀ n x, w - x ≤ n → x ≤ extendRun px w thr r g b x := by
    intro n
    induction n with
    | zero =>
      intro x h0
      rw [extendRun]
      have hx : ¬ x < w := by omega
      simp [hx]
    | succ n ih =>
      intro x h0
      rw [extendRun]
      by_cases hx : x < w
      · simp only [dif_pos hx]
        split
        · exact Nat.le_trans (by omega) (ih (x + 1) (by omega))
        · exact Nat.le_refl x
      · simp [hx]
  exact fun x => H (w - x) x (Nat.le_refl _)

theorem extendRun_le (px : Nat → RGBA) (w thr r g b : Nat) :
    ∀ x, x ≤ w → extendRun px w thr r g b x ≤ w := by
  have H : ∀ n x, w - x ≤ n → x ≤ w → extendRun px w thr r g b x ≤ w := by
    intro n
    induction n with
    | zero =>
      intro x h0 hxw
      rw [extendRun]
      have hx : ¬ x < w := by omega
      simp [hx, hxw]
    | succ n ih =>
      intro x h0 hxw
      rw [extendRun]
      by_cases hx : x < w
      · simp only [dif_pos hx]
        split
        · exact ih (x + 1) (by omega) (by omega)
        · exact hxw
      · simp [hx, hxw]
  exact fun x => H (w - x) x (Nat.le_refl _)

theorem extendRun_good (px : Nat → RGBA) (w thr r g b : Nat) :
    ∀ x j, x ≤ j → j < extendRun px w thr r g b x →
      thr ≤ (px j).a ∧ ((px j).r, (px j).g, (px j).b) = (r, g, b) := by
  have H : ∀ n x, w - x ≤ n → ∀ j, x ≤ j → j < extendRun px w thr r g b x →
      thr ≤ (px j).a ∧ ((px j).r, (px j).g, (px j).b) = (r, g, b) := by
    intro n
    induction n with
    | zero =>
      intro x h0 j hj1 hj2
      rw [extendRun] at hj2
      have hx : ¬ x < w := by omega
      simp [hx] at hj2
      omega
    | succ n ih =>
      intro x h0 j hj1 hj2
      rw [extendRun] at hj2
      by_cases hx : x < w
      · simp only [dif_pos hx] at hj2
        by_cases hc : thr ≤ (px x).a ∧ ((px x).r, (px x).g, (px x).b) = (r, g, b)
        · rw [if_pos hc] at hj2
          rcases Nat.eq_or_lt_of_le hj1 with rfl | hlt
          · exact hc
          · exact ih (x + 1) (by omega) j hlt hj2
        · rw [if_neg hc] at hj2
          omega
      · simp [hx] at hj2
        omega
  exact fun x => H (w - x) x (Nat.le_refl _)

theorem extendRun_stop (px : Nat → RGBA) (w thr r g b : Nat) :
    ∀ x, extendRun px w thr r g b x < w →
      ¬ (thr ≤ (px (extendRun px w thr r g b x)).a ∧
        ((px (extendRun px w thr r g b x)).r, (px (extendRun px w thr r g b x)).g,
          (px (extendRun px w thr r g b x)).b) = (r, g, b)) := by
  have H : ∀ n x, w - x ≤ n → extendRun px w thr r g b x < w →
      ¬ (thr ≤ (px (extendRun px w thr r g b x)).a ∧
        ((px (extendRun px w thr r g b x)).r, (px (extendRun px w thr r g b x)).g,
          (px (extendRun px w thr r g b x)).b) = (r, g, b)) := by
    intro n
    induction n with
    | zero =>
      intro x h0
      rw [extendRun]
      have hx : ¬ x < w := by omega
      simp [hx]
    | succ n ih =>
      intro x h0
      rw [extendRun]
      by_cases hx : x < w
      · simp only [dif_pos hx]
        by_cases hc : thr ≤ (px x).a ∧ ((px x).r, (px x).g, (px x).b) = (r, g, b)
        · rw [if_pos hc]
          exact ih (x + 1) (by omega)
        · rw [if_neg hc]
          intro _
          exact hc
      · simp [hx]
  exact fun x => H (w - x) x (Nat.le_refl _)

/-- If every pixel from `x` to the end of the row is above threshold and
matches `(r, g, b)`, the inner loop runs to the end of the row. -/
theorem extendRun_all_good (px : Nat → RGBA) (w thr r g b : Nat) (x : Nat)
    (hx : x ≤ w)
    (hgood : ∀ j, x ≤ j → j < w →
      thr ≤ (px j).a ∧ ((px j).r, (px j).g, (px j).b) = (r, g, b)) :
    extendRun px w thr r g b x = w := by
  have h1 := extendRun_ge px w thr r g b x
  have h2 := extendRun_le px w thr r g b x hx
  rcases Nat.lt_or_ge (extendRun px w thr r g b x) w with hlt | hge
  · exact absurd (hgood _ h1 hlt) (extendRun_stop px w thr r g b x hlt)
  · omega

/-- Every `(color, run)` pair produced by `scanRow` starting at `x0` lies
in `[x0, w)`, is non-empty, consists of pixels above threshold whose
normalized color is the recorded key, and is right-maximal: the column
just after the run is out of the row, below threshold, or of a different
color. -/
theorem scanRow_mem (px : Nat → RGBA) (w thr y : Nat) :
    ∀ x0 c rn, (c, rn) ∈ scanRow px w thr y x0 →
      rn.y = y ∧ x0 ≤ rn.x1 ∧ rn.x1 ≤ rn.x2 ∧ rn.x2 < w ∧
      (∀ j, rn.x1 ≤ j → j ≤ rn.x2 → thr ≤ (px j).a ∧ colorKey (px j) = c) ∧
      (rn.x2 + 1 < w → thr ≤ (px (rn.x2 + 1)).a → colorKey (px (rn.x2 + 1)) ≠ c) := by
  have H : ∀ n x0, w - x0 ≤ n → ∀ c rn, (c, rn) ∈ scanRow px w thr y x0 →
      rn.y = y ∧ x0 ≤ rn.x1 ∧ rn.x1 ≤ rn.x2 ∧ rn.x2 < w ∧
      (∀ j, rn.x1 ≤ j → j ≤ rn.x2 → thr ≤ (px j).a ∧ colorKey (px j) = c) ∧
      (rn.x2 + 1 < w → thr ≤ (px (rn.x2 + 1)).a → colorKey (px (rn.x2 + 1)) ≠ c) := by
    intro n
    induction n with
    | zero =>
      intro x0 h0 c rn hmem
      rw [scanRow] at hmem
      have hx : ¬ x0 < w := by omega
      simp [hx] at hmem
    | succ n ih =>
      intro x0 h0 c rn hmem
      rw [scanRow] at hmem
      by_cases hx : x0 < w
      · simp only [dif_pos hx] at hmem
        by_cases hth : thr ≤ (px x0).a
        · rw [if_pos hth] at hmem
          set e := extendRun px w thr (px x0).r (px x0).g (px x0).b (x0 + 1) with he
          have he1 : x0 + 1 ≤ e := by
            rw [he]; exact extendRun_ge px w thr (px x0).r (px x0).g (px x0).b (x0 + 1)
          have he2 : e ≤ w := by
            rw [he]; exact extendRun_le px w thr (px x0).r (px x0).g (px x0).b (x0 + 1) (by omega)
          rcases List.mem_cons.mp hmem with heq | htail
          · injection heq with hc hrn
            subst hc
            subst hrn
            refine ⟨rfl, Nat.le_refl _, show x0 ≤ e - 1 by omega, show e - 1 < w by omega, ?_, ?_⟩
            · intro j hj1 hj2
              replace hj1 : x0 ≤ j := hj1
              replace hj2 : j ≤ e - 1 := hj2
              rcases Nat.eq_or_lt_of_le hj1 with rfl | hgt
              · exact ⟨hth, rfl⟩
              · have hj3 : j < e := by omega
                have hg := extendRun_good px w thr (px x0).r (px x0).g (px x0).b (x0 + 1) j
                  (by omega) (by rw [← he]; omega)
                exact ⟨hg.1, (colorKey_eq_iff _ _).mpr hg.2⟩
            · have her : e - 1 + 1 = e := by omega
              show e - 1 + 1 < w → thr ≤ (px (e - 1 + 1)).a → colorKey (px (e - 1 + 1)) ≠ colorKey (px x0)
              rw [her]
              intro hlt hthr hck
              have hstop := extendRun_stop px w thr (px x0).r (px x0).g (px x0).b (x0 + 1)
              rw [← he] at hstop
              exact hstop hlt ⟨hthr, (colorKey_eq_iff _ _).mp hck⟩
          · obtain ⟨g1, g2, g3, g4, g5, g6⟩ := ih e (by omega) c rn htail
            exact ⟨g1, by omega, g3, g4, g5, g6⟩
        · rw [if_neg hth] at hmem
          obtain ⟨g1, g2, g3, g4, g5, g6⟩ := ih (x0 + 1) (by omega) c rn hmem
          exact ⟨g1, by omega, g3, g4, g5, g6⟩
      · simp [hx] at hmem
  exact fun x0 => H (w - x0) x0 (Nat.le_refl _)

/-- Every above-threshold column at or after `x0` is covered by some run
produced by `scanRow` starting at `x0`. -/
theorem scanRow_covers (px : Nat → RGBA) (w thr y : Nat) :
    ∀ x0 j, x0 ≤ j → j < w → thr ≤ (px j).a →
      ∃ p ∈ scanRow px w thr y x0, p.2.x1 ≤ j ∧ j ≤ p.2.x2 := by
  have H : ∀ n x0, w - x0 ≤ n → ∀ j, x0 ≤ j → j < w → thr ≤ (px j).a →
      ∃ p ∈ scanRow px w thr y x0, p.2.x1 ≤ j ∧ j ≤ p.2.x2 := by
    intro n
    induction n with
    | zero => intro x0 h0 j hj1 hj2 hj3; omega
    | succ n ih =>
      intro x0 h0 j hj1 hj2 hj3
      have hx : x0 < w := by omega
      rw [scanRow]
      simp only [dif_pos hx]
      by_cases hth : thr ≤ (px x0).a
      · rw [if_pos hth]
        set e := extendRun px w thr (px x0).r (px x0).g (px x0).b (x0 + 1) with he
        have he1 : x0 + 1 ≤ e := by
          rw [he]; exact extendRun_ge px w thr (px x0).r (px x0).g (px x0).b (x0 + 1)
        by_cases hje : j < e
        · exact ⟨(colorKey (px x0), ⟨y, x0, e - 1⟩), List.mem_cons_self _ _, hj1,
            show j ≤ e - 1 by omega⟩
        · obtain ⟨p, hp, hpj⟩ := ih e (by omega) j (by omega) hj2 hj3
          exact ⟨p, List.mem_cons_of_mem _ hp, hpj⟩
      · rw [if_neg hth]
        have hne : x0 ≠ j := fun h => hth (h ▸ hj3)
        exact ih (x0 + 1) (by omega) j (by omega) hj2 hj3
  exact fun x0 => H (w - x0) x0 (Nat.le_refl _)

/-- The runs of one row are produced left to right: any earlier run ends
strictly before any later run starts. -/
theorem scanRow_pairwise (px : Nat → RGBA) (w thr y : Nat) :
    ∀ x0, (scanRow px w thr y x0).Pairwise (fun p q => p.2.x2 < q.2.x1) := by
  have H : ∀ n x0, w - x0 ≤ n →
      (scanRow px w thr y x0).Pairwise (fun p q => p.2.x2 < q.2.x1) := by
    intro n
    induction n with
    | zero =>
      intro x0 h0
      rw [scanRow]
      have hx : ¬ x0 < w := by omega
      simp [hx]
    | succ n ih =>
      intro x0 h0
      rw [scanRow]
      by_cases hx : x0 < w
      · simp only [dif_pos hx]
        by_cases hth : thr ≤ (px x0).a
        · rw [if_pos hth]
          set e := extendRun px w thr (px x0).r (px x0).g (px x0).b (x0 + 1) with he
          have he1 : x0 + 1 ≤ e := by
            rw [he]; exact extendRun_ge px w thr (px x0).r (px x0).g (px x0).b (x0 + 1)
          refine List.Pairwise.cons ?_ (ih e (by omega))
          intro q hq
          have hmem := scanRow_mem px w thr y e q.1 q.2 hq
          show e - 1 < q.2.x1
          omega
        · rw [if_neg hth]
          exact ih (x0 + 1) (by omega)
      · simp [hx]
  exact fun x0 => H (w - x0) x0 (Nat.le_refl _)

theorem tablePairs_cons (c0 : RGBA) (rs0 : List Run) (tl : List (RGBA × List Run)) :
    tablePairs ((c0, rs0) :: tl) = rs0.map (fun r' => (c0, r')) ++ tablePairs tl := by
  simp [tablePairs]

/-- Recording one more run permutes the table's pairs by appending it. -/
theorem tablePairs_addRun (tbl : List (RGBA × List Run)) (c : RGBA) (r : Run) :
    (tablePairs (addRun tbl c r)).Perm (tablePairs tbl ++ [(c, r)]) := by
  induction tbl with
  | nil => simp [addRun, tablePairs]
  | cons p rest ih =>
    obtain ⟨c', rs⟩ := p
    by_cases hc : c' = c
    · subst hc
      have hstep : addRun ((c', rs) :: rest) c' r = (c', rs ++ [r]) :: rest := by
        simp [addRun]
      rw [hstep, tablePairs_cons, tablePairs_cons]
      simp only [List.map_append, List.map_cons, List.map_nil]
      rw [List.append_assoc, List.append_assoc]
      exact List.Perm.append_left _ List.perm_append_comm
    · have hstep : addRun ((c', rs) :: rest) c r = (c', rs) :: addRun rest c r := by
        simp [addRun, hc]
      rw [hstep, tablePairs_cons, tablePairs_cons]
      rw [List.append_assoc]
      exact List.Perm.append_left _ ih

/-- Folding a batch of pairs into the table appends them, up to
permutation of the pair list. -/
theorem tablePairs_foldl (ps : List (RGBA × Run)) :
    ∀ tbl, (tablePairs (ps.foldl (fun t p => addRun t p.1 p.2) tbl)).Perm
      (tablePairs tbl ++ ps) := by
  induction ps with
  | nil => intro tbl; simp
  | cons p ps ih =>
    intro tbl
    have hstep : (p :: ps).foldl (fun t p => addRun t p.1 p.2) tbl
        = ps.foldl (fun t p => addRun t p.1 p.2) (addRun tbl p.1 p.2) := rfl
    rw [hstep]
    refine (ih (addRun tbl p.1 p.2)).trans ?_
    refine ((tablePairs_addRun tbl p.1 p.2).append_right ps).trans ?_
    rw [List.append_assoc]
    simp

/-- The pairs of the full `vectorize` table are a permutation of all the
rows' scan results concatenated in row order. -/
theorem tablePairs_vectorize (img : Bitmap) (thr : Nat) :
    (tablePairs (vectorize img thr)).Perm
      ((List.range img.h).flatMap (rowRuns img thr)) := by
  have H : ∀ (ys : List Nat) (tbl : List (RGBA × List Run)),
      (tablePairs (ys.foldl
        (fun t y => (rowRuns img thr y).foldl (fun t p => addRun t p.1 p.2) t) tbl)).Perm
      (tablePairs tbl ++ ys.flatMap (rowRuns img thr)) := by
    intro ys
    induction ys with
    | nil => intro tbl; simp
    | cons y ys ih =>
      intro tbl
      have hstep : (y :: ys).foldl
            (fun t y => (rowRuns img thr y).foldl (fun t p => addRun t p.1 p.2) t) tbl
          = ys.foldl (fun t y => (rowRuns img thr y).foldl (fun t p => addRun t p.1 p.2) t)
            ((rowRuns img thr y).foldl (fun t p => addRun t p.1 p.2) tbl) := rfl
      rw [hstep]
      refine (ih _).trans ?_
      refine ((tablePairs_foldl (rowRuns img thr y) tbl).append_right _).trans ?_
      rw [List.append_assoc, List.flatMap_cons]
  have := H (List.range img.h) []
  simpa [vectorize, tablePairs] using this

/-- A `(color, run)` pair is recorded in the table iff the run appears in
the run list stored under that color key. -/
theorem mem_tablePairs_iff (tbl : List (RGBA × List Run)) (c : RGBA) (r : Run) :
    (c, r) ∈ tablePairs tbl ↔ ∃ rs, (c, rs) ∈ tbl ∧ r ∈ rs := by
  simp only [tablePairs, List.mem_flatMap, List.mem_map, Prod.mk.injEq]
  constructor
  · rintro ⟨p, hp, r', hr', hc, hr⟩
    subst hc
    subst hr
    exact ⟨p.2, hp, hr'⟩
  · rintro ⟨rs, hmem, hr⟩
    exact ⟨(c, rs), hmem, r, hr, rfl, rfl⟩

/-- C2: the pairs recorded by `vectorize` cover exactly the in-bounds
pixels whose alpha is at least the threshold, and no pixel is covered by
two recorded runs. -/
theorem vectorize_partition (img : Bitmap) (thr : Nat) :
    (∀ x y, (∃ p ∈ tablePairs (vectorize img thr), covers p x y) ↔
      (x < img.w ∧ y < img.h ∧ thr ≤ (img.px x y).a)) ∧
    (tablePairs (vectorize img thr)).Pairwise
      (fun p q => ∀ x y, ¬ (covers p x y ∧ covers q x y)) := by
  have hperm := tablePairs_vectorize img thr
  constructor
  · intro x y
    constructor
    · rintro ⟨p, hp, hcov⟩
      have hp' := hperm.mem_iff.mp hp
      rw [List.mem_flatMap] at hp'
      obtain ⟨y', hy', hpy⟩ := hp'
      obtain ⟨hy0, _, hx12, hx2w, hgood, _⟩ :=
        scanRow_mem (fun x => img.px x y') img.w thr y' 0 p.1 p.2 hpy
      simp only [covers] at hcov
      obtain ⟨hcy, hcx1, hcx2⟩ := hcov
      have hyy : y' = y := by rw [← hy0, hcy]
      subst hyy
      exact ⟨by omega, List.mem_range.mp hy', (hgood x hcx1 hcx2).1⟩
    · rintro ⟨hx, hy, ha⟩
      obtain ⟨p, hp, hp1, hp2⟩ := scanRow_covers (fun x => img.px x y) img.w thr y 0 x
        (Nat.zero_le x) hx ha
      refine ⟨p, hperm.mem_iff.mpr ?_, ?_⟩
      · rw [List.mem_flatMap]
        exact ⟨y, List.mem_range.mpr hy, hp⟩
      · have hm := scanRow_mem (fun x => img.px x y) img.w thr y 0 p.1 p.2 hp
        show p.2.y = y ∧ p.2.x1 ≤ x ∧ x ≤ p.2.x2
        exact ⟨hm.1, hp1, hp2⟩
  · refine (List.Perm.pairwise_iff ?_ hperm).mpr ?_
    · intro p q h x y hc
      exact h x y ⟨hc.2, hc.1⟩
    · rw [List.pairwise_flatMap]
      constructor
      · intro y' hy'
        refine (scanRow_pairwise (fun x => img.px x y') img.w thr y' 0).imp ?_
        intro p q hpq x y hc
        simp only [covers] at hc
        omega
      · refine (List.pairwise_lt_range img.h).imp ?_
        intro y1 y2 hlt p hp q hq x y hc
        have hp' := (scanRow_mem (fun x => img.px x y1) img.w thr y1 0 p.1 p.2 hp).1
        have hq' := (scanRow_mem (fun x => img.px x y2) img.w thr y2 0 q.1 q.2 hq).1
        simp only [covers] at hc
        omega

/-- C8: every recorded run is non-degenerate (`x1 ≤ x2`), and two
distinct runs recorded for the same row under the same color key neither
overlap nor touch: at least one column lies strictly between them. -/
theorem vectorize_run_invariant (img : Bitmap) (thr : Nat) (c : RGBA) (rs : List Run)
    (hmem : (c, rs) ∈ vectorize img thr) :
    (∀ r ∈ rs, r.x1 ≤ r.x2) ∧
    (∀ r1 ∈ rs, ∀ r2 ∈ rs, r1.y = r2.y → r1 ≠ r2 →
      r1.x2 + 1 < r2.x1 ∨ r2.x2 + 1 < r1.x1) := by
  have key : ∀ r ∈ rs, ∃ yr, yr < img.h ∧ r.y = yr ∧ (c, r) ∈ rowRuns img thr yr := by
    intro r hr
    have hp : (c, r) ∈ tablePairs (vectorize img thr) :=
      (mem_tablePairs_iff _ c r).mpr ⟨rs, hmem, hr⟩
    have hp' := (tablePairs_vectorize img thr).mem_iff.mp hp
    rw [List.mem_flatMap] at hp'
    obtain ⟨yr, hyr, hmemr⟩ := hp'
    exact ⟨yr, List.mem_range.mp hyr,
      (scanRow_mem (fun x => img.px x yr) img.w thr yr 0 c r hmemr).1, hmemr⟩
  constructor
  · intro r hr
    obtain ⟨yr, _, _, hmemr⟩ := key r hr
    exact (scanRow_mem (fun x => img.px x yr) img.w thr yr 0 c r hmemr).2.2.1
  · intro r1 h1 r2 h2 hy hne
    obtain ⟨y1, hy1h, hy1, hm1⟩ := key r1 h1
    obtain ⟨y2, hy2h, hy2, hm2⟩ := key r2 h2
    have hyy : y1 = y2 := by omega
    subst hyy
    have hpw := (scanRow_pairwise (fun x => img.px x y1) img.w thr y1 0).imp
      (fun h => Or.inl h :
        ∀ {p q : RGBA × Run}, p.2.x2 < q.2.x1 → p.2.x2 < q.2.x1 ∨ q.2.x2 < p.2.x1)
    have hsymm : Symmetric (fun p q : RGBA × Run => p.2.x2 < q.2.x1 ∨ q.2.x2 < p.2.x1) :=
      fun p q h => h.symm
    have hne' : (c, r1) ≠ (c, r2) := fun h => hne (congrArg Prod.snd h)
    have hor := hpw.forall hsymm hm1 hm2 hne'
    replace hor : r1.x2 < r2.x1 ∨ r2.x2 < r1.x1 := hor
    have hfull1 := scanRow_mem (fun x => img.px x y1) img.w thr y1 0 c r1 hm1
    have hfull2 := scanRow_mem (fun x => img.px x y1) img.w thr y1 0 c r2 hm2
    obtain ⟨_, _, h1x, h1w, h1good, h1max⟩ := hfull1
    obtain ⟨_, _, h2x, h2w, h2good, h2max⟩ := hfull2
    rcases hor with hlt | hlt
    · left
      rcases Nat.lt_or_ge (r1.x2 + 1) r2.x1 with hgap | htouch
      · exact hgap
      · exfalso
        have heq : r1.x2 + 1 = r2.x1 := by omega
        have hpix := h2good r2.x1 (Nat.le_refl _) h2x
        rw [← heq] at hpix
        exact h1max (by omega) hpix.1 hpix.2
    · right
      rcases Nat.lt_or_ge (r2.x2 + 1) r1.x1 with hgap | htouch
      · exact hgap
      · exfalso
        have heq : r2.x2 + 1 = r1.x1 := by omega
        have hpix := h1good r1.x1 (Nat.le_refl _) h1x
        rw [← heq] at hpix
        exact h2max (by omega) hpix.1 hpix.2

/-- C9: `select_size` applied to an empty list of available sizes fails
with the `NoSizesAvailable` error (`"No sizes available in ICO"`) and
never returns a size, whatever `desired` is. -/
theorem select_size_empty_fails (desired : Option Size) :
    select_size [] desired = .error "No sizes available in ICO" ∧
      ∀ s : Size, select_size [] desired ≠ .ok s := by
  refine ⟨rfl, ?_⟩
  intro s h
  simp [select_size] at h

/-- C10: whenever `select_size` returns a size, that size is an element of
the available list — the selector never fabricates a size. -/
theorem select_size_mem_available (available : List Size) (desired : Option Size) (r : Size)
    (h : select_size available desired = .ok r) : r ∈ available := by
  match available, desired with
  | [], _ => simp [select_size] at h
  | a :: rest, none =>
    simp only [select_size, Except.ok.injEq] at h
    exact h ▸ (pyMaxSize_spec a rest).1
  | a :: rest, some (dw, dh) =>
    simp only [select_size] at h
    by_cases hmem : (dw, dh) ∈ a :: rest
    · rw [if_pos hmem] at h
      injection h with h
      exact h ▸ hmem
    · rw [if_neg hmem] at h
      rcases hfil : (a :: rest).filter (fun s => dw ≤ s.1 && dh ≤ s.2) with _ | ⟨b, larger⟩
      · rw [hfil] at h
        injection h with h
        exact h ▸ (pyMaxSize_spec a rest).1
      · rw [hfil] at h
        injection h with h
        have hmem2 : pyMinSize b larger ∈ b :: larger := (pyMinSize_spec b larger).1
        rw [← hfil] at hmem2
        exact h ▸ List.mem_of_mem_filter hmem2

/-- Witness for C10 at a concrete input. -/
theorem select_size_mem_available_witness :
    select_size [(16, 16), (32, 32)] none = .ok (32, 32) ∧ ((32 : Nat), (32 : Nat)) ∈ [((16 : Nat), (16 : Nat)), (32, 32)] := by
  refine ⟨rfl, ?_⟩
  exact select_size_mem_available [(16, 16), (32, 32)] none (32, 32) rfl

/-- C3: with `desired = none`, `select_size` on a non-empty available
list returns the strict lexicographic maximum of `(area, width, height)`:
a member beating every other member on that key. -/
theorem select_size_none_max (a : Size) (rest : List Size) :
    ∃ r, select_size (a :: rest) none = .ok r ∧ r ∈ a :: rest ∧
      ∀ s ∈ a :: rest, s = r ∨ lt3 (maxKey s) (maxKey r) :=
  ⟨pyMaxSize a rest, rfl, (pyMaxSize_spec a rest).1, (pyMaxSize_spec a rest).2⟩

/-- C7: when the desired size is itself available, `select_size` returns
exactly it. -/
theorem select_size_exact (available : List Size) (d : Size) (h : d ∈ available) :
    select_size available (some d) = .ok d := by
  match available with
  | [] => simp at h
  | a :: rest =>
    obtain ⟨dw, dh⟩ := d
    simp only [select_size, if_pos h]

/-- Witness for C7 at a concrete input. -/
theorem select_size_exact_witness :
    ((32 : Nat), (32 : Nat)) ∈ [((16 : Nat), (16 : Nat)), (32, 32), (64, 64)] ∧
      select_size [(16, 16), (32, 32), (64, 64)] (some (32, 32)) = .ok (32, 32) :=
  ⟨by decide, select_size_exact [(16, 16), (32, 32), (64, 64)] (32, 32) (by decide)⟩

/-- C4: when no available size dominates the desired size in both
dimensions, `select_size` falls back to the same result as with
`desired = none`. -/
theorem select_size_fallback (a : Size) (rest : List Size) (dw dh : Nat)
    (hnone : ∀ s ∈ a :: rest, ¬ (dw ≤ s.1 ∧ dh ≤ s.2)) :
    select_size (a :: rest) (some (dw, dh)) = select_size (a :: rest) none := by
  have hmem : (dw, dh) ∉ a :: rest := fun hm => hnone (dw, dh) hm ⟨Nat.le_refl _, Nat.le_refl _⟩
  have hfil : (a :: rest).filter (fun s => dw ≤ s.1 && dh ≤ s.2) = [] := by
    apply List.filter_eq_nil_iff.mpr
    intro s hs
    simpa using hnone s hs
  simp only [select_size, if_neg hmem, hfil]

/-- Witness for C4 at a concrete input. -/
theorem select_size_fallback_witness :
    (∀ s ∈ [((16 : Nat), (16 : Nat)), (32, 8)], ¬ ((40 : Nat) ≤ s.1 ∧ (12 : Nat) ≤ s.2)) ∧
      select_size [(16, 16), (32, 8)] (some (40, 12)) = select_size [(16, 16), (32, 8)] none :=
  ⟨by decide, select_size_fallback (16, 16) [(32, 8)] 40 12 (by decide)⟩

/-- C1: with a desired size that has no exact match but at least one
available size dominating it in both dimensions, `select_size` returns,
among exactly those candidates, the unique strict lexicographic minimum
of `(|width - height|, area, width, height)`. -/
theorem select_size_nearest_larger (available : List Size) (dw dh : Nat)
    (hnotmem : (dw, dh) ∉ available)
    (hlarger : available.filter (fun s => dw ≤ s.1 && dh ≤ s.2) ≠ []) :
    ∃ r, select_size available (some (dw, dh)) = .ok r ∧
      r ∈ available.filter (fun s => dw ≤ s.1 && dh ≤ s.2) ∧
      ∀ s ∈ available.filter (fun s => dw ≤ s.1 && dh ≤ s.2), s ≠ r →
        lt4 (minKey r) (minKey s) := by
  match available with
  | [] => simp at hlarger
  | a :: rest =>
    rcases hfil : (a :: rest).filter (fun s => dw ≤ s.1 && dh ≤ s.2) with _ | ⟨b, larger⟩
    · exact absurd hfil hlarger
    · refine ⟨pyMinSize b larger, ?_, ?_, ?_⟩
      · simp only [select_size, if_neg hnotmem, hfil]
      · rw [hfil]
        exact (pyMinSize_spec b larger).1
      · rw [hfil]
        intro s hs hne
        rcases (pyMinSize_spec b larger).2 s hs with h | h
        · exact absurd h hne
        · exact h

/-- Witness for C1: the spec's own example
`available = {(40,40), (50,30), (60,60)}`, `desired = (35,35)`; the
result is `(40,40)`. -/
theorem select_size_nearest_larger_witness :
    ((35 : Nat), (35 : Nat)) ∉ [((40 : Nat), (40 : Nat)), (50, 30), (60, 60)] ∧
      [((40 : Nat), (40 : Nat)), (50, 30), (60, 60)].filter
        (fun s => 35 ≤ s.1 && 35 ≤ s.2) ≠ [] ∧
      (∃ r, select_size [(40, 40), (50, 30), (60, 60)] (some (35, 35)) = .ok r ∧
        r ∈ [((40 : Nat), (40 : Nat)), (50, 30), (60, 60)].filter
          (fun s => 35 ≤ s.1 && 35 ≤ s.2) ∧
        ∀ s ∈ [((40 : Nat), (40 : Nat)), (50, 30), (60, 60)].filter
          (fun s => 35 ≤ s.1 && 35 ≤ s.2), s ≠ r → lt4 (minKey r) (minKey s)) ∧
      select_size [(40, 40), (50, 30), (60, 60)] (some (35, 35)) = .ok (40, 40) :=
  ⟨by decide, by decide,
    select_size_nearest_larger [(40, 40), (50, 30), (60, 60)] 35 35 (by decide) (by decide),
    rfl⟩

/-- Concrete evaluation of the vectorizer on `redImg`. -/
theorem vectorize_redImg :
    vectorize redImg 128 = [(⟨255, 0, 0, 255⟩, [⟨0, 0, 1⟩, ⟨1, 0, 1⟩])] := by
  simp +decide [vectorize, rowRuns, redImg, scanRow, extendRun, addRun, colorKey,
    List.range_succ]

/-- Witness for C8 at the concrete bitmap `redImg`. -/
theorem vectorize_run_invariant_witness :
    (⟨255, 0, 0, 255⟩, [(⟨0, 0, 1⟩ : Run), ⟨1, 0, 1⟩]) ∈ vectorize redImg 128 ∧
    ((∀ r ∈ [(⟨0, 0, 1⟩ : Run), ⟨1, 0, 1⟩], r.x1 ≤ r.x2) ∧
     (∀ r1 ∈ [(⟨0, 0, 1⟩ : Run), ⟨1, 0, 1⟩], ∀ r2 ∈ [(⟨0, 0, 1⟩ : Run), ⟨1, 0, 1⟩],
       r1.y = r2.y → r1 ≠ r2 → r1.x2 + 1 < r2.x1 ∨ r2.x2 + 1 < r1.x1)) :=
  ⟨by rw [vectorize_redImg]; exact List.mem_singleton.mpr rfl,
   vectorize_run_invariant redImg 128 ⟨255, 0, 0, 255⟩ [⟨0, 0, 1⟩, ⟨1, 0, 1⟩]
     (by rw [vectorize_redImg]; exact List.mem_singleton.mpr rfl)⟩

/-- C6: a bitmap whose pixels all have RGB `(r, g, b)` and alpha at least
the threshold vectorizes to a single color key `(r, g, b, 255)` holding
one full-width run per row: the `i`-th run is `Run i 0 (w - 1)`. -/
theorem vectorize_uniform (img : Bitmap) (thr r g b : Nat)
    (hw : 0 < img.w) (hh : 0 < img.h)
    (hpix : ∀ x y, x < img.w → y < img.h →
      (img.px x y).r = r ∧ (img.px x y).g = g ∧ (img.px x y).b = b ∧
        thr ≤ (img.px x y).a) :
    vectorize img thr =
      [(⟨r, g, b, 255⟩, (List.range img.h).map (fun i => ⟨i, 0, img.w - 1⟩))] := by
  have hrow : ∀ y, y < img.h →
      rowRuns img thr y = [(⟨r, g, b, 255⟩, ⟨y, 0, img.w - 1⟩)] := by
    intro y hy
    have h0 := hpix 0 y hw hy
    unfold rowRuns
    rw [scanRow]
    rw [dif_pos hw]
    rw [if_pos (show thr ≤ ((fun x => img.px x y) 0).a from h0.2.2.2)]
    have he : extendRun (fun x => img.px x y) img.w thr ((fun x => img.px x y) 0).r
        ((fun x => img.px x y) 0).g ((fun x => img.px x y) 0).b 1 = img.w := by
      apply extendRun_all_good _ _ _ _ _ _ _ (by omega)
      intro j hj1 hj2
      have hj := hpix j y hj2 hy
      show thr ≤ (img.px j y).a ∧
        ((img.px j y).r, (img.px j y).g, (img.px j y).b)
          = ((img.px 0 y).r, (img.px 0 y).g, (img.px 0 y).b)
      rw [hj.1, hj.2.1, hj.2.2.1, h0.1, h0.2.1, h0.2.2.1]
      exact ⟨hj.2.2.2, rfl⟩
    rw [he]
    rw [scanRow]
    rw [dif_neg (show ¬ img.w < img.w by omega)]
    have hck : colorKey ((fun x => img.px x y) 0) = ⟨r, g, b, 255⟩ := by
      show colorKey (img.px 0 y) = ⟨r, g, b, 255⟩
      rw [colorKey, h0.1, h0.2.1, h0.2.2.1]
    rw [hck]
  have hfold : ∀ n, n ≤ img.h →
      (List.range n).foldl
        (fun tbl y => (rowRuns img thr y).foldl (fun t p => addRun t p.1 p.2) tbl) []
      = if n = 0 then []
        else [(⟨r, g, b, 255⟩, (List.range n).map (fun i => ⟨i, 0, img.w - 1⟩))] := by
    intro n
    induction n with
    | zero => intro _; simp
    | succ n ih =>
      intro hn
      rw [List.range_succ, List.foldl_append, ih (by omega)]
      have hcur := hrow n (by omega)
      by_cases hn0 : n = 0
      · subst hn0
        simp [hcur, addRun]
      · rw [if_neg hn0, if_neg (Nat.succ_ne_zero n)]
        simp only [List.foldl_cons, List.foldl_nil, hcur]
        show addRun [(⟨r, g, b, 255⟩, (List.range n).map (fun i => ⟨i, 0, img.w - 1⟩))]
          ⟨r, g, b, 255⟩ ⟨n, 0, img.w - 1⟩ = _
        rw [addRun]
        rw [if_pos rfl]
        simp [List.map_append]
  show (List.range img.h).foldl
      (fun tbl y => (rowRuns img thr y).foldl (fun t p => addRun t p.1 p.2) tbl) [] = _
  rw [hfold img.h (Nat.le_refl _), if_neg (by omega)]

/-- Witness for C6 at the concrete bitmap `redImg`. -/
theorem vectorize_uniform_witness :
    0 < redImg.w ∧ 0 < redImg.h ∧
    (∀ x y, x < redImg.w → y < redImg.h →
      (redImg.px x y).r = 255 ∧ (redImg.px x y).g = 0 ∧ (redImg.px x y).b = 0 ∧
        128 ≤ (redImg.px x y).a) ∧
    vectorize redImg 128 =
      [(⟨255, 0, 0, 255⟩, (List.range redImg.h).map (fun i => ⟨i, 0, redImg.w - 1⟩))] :=
  ⟨by decide, by decide,
   fun x y _ _ => ⟨rfl, rfl, rfl, by show (128 : Nat) ≤ 255; omega⟩,
   vectorize_uniform redImg 128 255 0 0 (by decide) (by decide)
     (fun x y _ _ => ⟨rfl, rfl, rfl, by show (128 : Nat) ≤ 255; omega⟩)⟩

theorem intercalate_go_append (s : String) :
    ∀ (l : List String) (pre acc : String),
      String.intercalate.go (pre ++ acc) s l = pre ++ String.intercalate.go acc s l := by
  intro l
  induction l with
  | nil => intro pre acc; rfl
  | cons c cs ih =>
    intro pre acc
    show String.intercalate.go (((pre ++ acc) ++ s) ++ c) s cs
        = pre ++ String.intercalate.go ((acc ++ s) ++ c) s cs
    have hre : ((pre ++ acc) ++ s) ++ c = pre ++ ((acc ++ s) ++ c) := by
      rw [String.append_assoc, String.append_assoc, String.append_assoc acc s c]
    rw [hre]
    exact ih pre ((acc ++ s) ++ c)

theorem intercalate_cons (s a : String) (l : List String) (h : l ≠ []) :
    String.intercalate s (a :: l) = a ++ s ++ String.intercalate s l := by
  match l with
  | [] => exact absurd rfl h
  | b :: bs =>
    show String.intercalate.go ((a ++ s) ++ ("" ++ b)) s bs
        = (a ++ s) ++ String.intercalate.go b s bs
    exact intercalate_go_append s bs (a ++ s) ("" ++ b)

/-- C5: `runs_to_path_d` emits one closed rectangle subpath per run, in
input order, joined by single spaces with no trailing separator; a run's
subpath renders the command sequence `M x1,y H x2+1 V y+1 H x1 Z`, whose
visited points are exactly the boundary cycle of the rectangle from
`(x1, y)` to `(x2+1, y+1)`; the empty run list yields the empty string. -/
theorem runs_to_path_d_spec :
    runs_to_path_d [] = "" ∧
    (∀ r, runs_to_path_d [r] = runPart r) ∧
    (∀ r rest, rest ≠ [] →
      runs_to_path_d (r :: rest) = runPart r ++ " " ++ runs_to_path_d rest) ∧
    (∀ r, runPart r = String.join ((runCmds r).map renderCmd)) ∧
    (∀ r cur start, tracePoints (runCmds r) cur start =
      rectCycle r.x1 r.y (r.x2 + 1) (r.y + 1)) := by
  refine ⟨rfl, fun r => rfl, ?_, ?_, fun r cur start => rfl⟩
  · intro r rest hne
    show String.intercalate " " (runPart r :: rest.map runPart) = _
    rw [intercalate_cons _ _ _ (by simpa using hne)]
    rfl
  · intro r
    simp [runPart, runCmds, renderCmd, String.join, String.append_assoc]

/-- Witness for C5: the spec's round-trip example `[Run(0,0,3)]` and a
two-run list exercising the separator rule. -/
theorem runs_to_path_d_spec_witness :
    runs_to_path_d [] = "" ∧
    runs_to_path_d [⟨0, 0, 3⟩] = "M0,0H4V1H0Z" ∧
    (([(⟨1, 0, 3⟩ : Run)] ≠ []) ∧
      runs_to_path_d [⟨0, 0, 3⟩, ⟨1, 0, 3⟩]
        = runPart ⟨0, 0, 3⟩ ++ " " ++ runs_to_path_d [⟨1, 0, 3⟩]) ∧
    tracePoints (runCmds ⟨0, 0, 3⟩) (0, 0) (0, 0) = rectCycle 0 0 4 1 :=
  ⟨runs_to_path_d_spec.1,
   by rw [runs_to_path_d_spec.2.1 ⟨0, 0, 3⟩]; rfl,
   ⟨by decide, runs_to_path_d_spec.2.2.1 ⟨0, 0, 3⟩ [⟨1, 0, 3⟩] (by decide)⟩,
   runs_to_path_d_spec.2.2.2.2 ⟨0, 0, 3⟩ (0, 0) (0, 0)⟩

end IcoToSvg
